import Mathlib

/-!
Verification of the pf-core expense allocation engine and approval
coordinator against its natural-language specification.

The Python source is shallowly embedded:
* integer minor-unit amounts become `ℤ`;
* Python `Decimal` values (quantities, weights) become `ℚ` (exact
  rational arithmetic; the 28-digit context of `decimal` is beyond the
  scale of any amount handled here);
* Python dicts keyed by user id, which preserve insertion order and are
  only used with distinct keys, become ordered association lists;
* functions that raise become `Except`/`Option`-valued functions;
* Django model writes become pure values describing the rows written.
-/

/-- Opaque user identifier (the code treats ids as opaque). -/
abbrev UserId := ℕ

/-- Floor of a rational, computably (`q.num // q.den` with floor division),
so that concrete inputs evaluate inside `decide`. -/
def ratFloor (q : ℚ) : ℤ := q.num.fdiv q.den

/-- Truncation toward zero, the semantics of Python `int(Decimal)`. -/
def ratTrunc (q : ℚ) : ℤ := if 0 ≤ q then ratFloor q else -ratFloor (-q)

/-- Rounding to the nearest integer with ties away from zero: the semantics
of `Decimal.quantize(Decimal("1"), rounding=ROUND_HALF_UP)`. -/
def roundHalfUp (q : ℚ) : ℤ :=
  if 0 ≤ q then ratFloor (q + 1/2) else -ratFloor (-q + 1/2)

/-- Rounding to the nearest integer with ties to even: the semantics of
`Decimal.quantize(Decimal("1"))` under the default decimal context. -/
def roundHalfEven (q : ℚ) : ℤ :=
  let f := ratFloor q
  if q - f < 1/2 then f
  else if 1/2 < q - f then f + 1
  else if Even f then f else f + 1

theorem ratFloor_eq_floor (q : ℚ) : ratFloor q = ⌊q⌋ := by
  rw [Rat.floor_def, ratFloor, Int.fdiv_eq_ediv _ (Int.ofNat_nonneg q.den)]

/-- Python `dict.fromkeys` on a list of ids: first occurrences, in order. -/
def dedupKeepFirst : List UserId → List UserId :=
  go []
where
  /-- Auxiliary recursion carrying the set of ids already seen. -/
  go (seen : List UserId) : List UserId → List UserId
    | [] => []
    | u :: rest => if u ∈ seen then go seen rest else u :: go (u :: seen) rest

theorem dedupKeepFirst_go_of_nodup (l : List UserId) :
    ∀ seen : List UserId, l.Nodup → (∀ u ∈ l, u ∉ seen) →
      dedupKeepFirst.go seen l = l := by
  induction l with
  | nil => intro seen _ _; rfl
  | cons u rest ih =>
    intro seen hnd hdisj
    have hu : u ∉ seen := hdisj u (List.mem_cons_self u rest)
    rw [dedupKeepFirst.go, if_neg hu]
    congr 1
    refine ih (u :: seen) (List.Nodup.of_cons hnd) ?_
    intro v hv
    rcases List.nodup_cons.mp hnd with ⟨hnotin, _⟩
    intro hmem
    rcases List.mem_cons.mp hmem with h | h
    · exact hnotin (h ▸ hv)
    · exact hdisj v (List.mem_cons_of_mem u hv) h

theorem dedupKeepFirst_of_nodup {l : List UserId} (h : l.Nodup) :
    dedupKeepFirst l = l :=
  dedupKeepFirst_go_of_nodup l [] h (fun _ _ hmem => (List.not_mem_nil _ hmem))

/-- The equal-split amount list shared by the `equally` branch of
`apply_total_mode_breakdown` and the zero-weight branch of
`_distribute_by_weights` (the Python code duplicates these lines):
`each = total // n`, `leftover = total - each * n`, and the first
`leftover` positions receive `each + 1`. -/
def equalSplitAmounts (total : ℤ) (n : ℕ) : List ℤ :=
  let each := total.fdiv n
  let leftover := total - each * n
  (List.range n).map fun i : ℕ => if (i : ℤ) < leftover then each + 1 else each

instance {ε α : Type} [DecidableEq ε] [DecidableEq α] :
    DecidableEq (Except ε α) := fun a b =>
  match a, b with
  | .error e, .error f =>
    if h : e = f then isTrue (by rw [h])
    else isFalse (by intro hc; cases hc; exact h rfl)
  | .ok x, .ok y =>
    if h : x = y then isTrue (by rw [h])
    else isFalse (by intro hc; cases hc; exact h rfl)
  | .error _, .ok _ => isFalse (by intro hc; cases hc)
  | .ok _, .error _ => isFalse (by intro hc; cases hc)

namespace services

/-- Embedding of `services._round_minor`: quantize to the nearest minor
unit with ROUND_HALF_UP. -/
def round_minor (x : ℚ) : ℤ := roundHalfUp x

/-- The proportional loop of `services._distribute_by_weights` for a
nonzero total weight `W`: every user but the last gets
`_round_minor(total * (w / W))`, accumulated into `acc`; the last user
gets `total - acc`. -/
def distributeLoop (total : ℤ) (W : ℚ) :
    List (UserId × ℚ) → ℤ → List (UserId × ℤ)
  | [], _ => []
  | [p], acc => [(p.1, total - acc)]
  | p :: q :: rest, acc =>
    let amt := round_minor ((total : ℚ) * (p.2 / W))
    (p.1, amt) :: distributeLoop total W (q :: rest) (acc + amt)

/-- Embedding of `services._distribute_by_weights`.  The Python function
returns an insertion-ordered dict `{user: amount}` built from a list of
`(user, weight)` pairs with distinct users; we return the corresponding
ordered association list. -/
def distribute_by_weights (total_minor : ℤ) (shares : List (UserId × ℚ)) :
    List (UserId × ℤ) :=
  match shares with
  | [] => []
  | _ =>
    let total_w := (shares.map Prod.snd).sum
    if total_w = 0 then
      (shares.map Prod.fst).zip (equalSplitAmounts total_minor shares.length)
    else
      distributeLoop total_minor total_w shares 0

/-- Assertion failures and explicit `raise`s of the service layer. -/
inductive ServiceErr where
  | assertionFailed
  | invalidSplitType
  | mixedShareKinds
  | explicitSumMismatch
  deriving DecidableEq, Repr

/-- The `equally` branch of `services.apply_total_mode_breakdown`:
deduplicate the participants keeping input order, assert the list is
nonempty, give everyone `total // n` and the first `leftover`
participants one extra minor unit.  The returned pairs are the
`ExpenseParticipant(user, owed_amount_minor)` rows written. -/
def apply_total_mode_breakdown_equally (total : ℤ)
    (participants : List UserId) : Except ServiceErr (List (UserId × ℤ)) :=
  let ps := dedupKeepFirst participants
  if ps.isEmpty then .error .assertionFailed
  else .ok (ps.zip (equalSplitAmounts total ps.length))

/-- The `shares` branch of `services.apply_total_mode_breakdown`: assert a
nonempty weights payload, distribute by weights, and (when an explicit
participant list was given) assert it coincides with the users of the
weights payload.  The returned pairs are the participant rows written. -/
def apply_total_mode_breakdown_shares (total : ℤ)
    (participants : List UserId) (weights : List (UserId × ℚ)) :
    Except ServiceErr (List (UserId × ℤ)) :=
  match weights with
  | [] => .error .assertionFailed
  | _ =>
    let amounts := distribute_by_weights total weights
    let ps := dedupKeepFirst participants
    if ps.isEmpty then .ok amounts
    else if (amounts.map Prod.fst).toFinset = ps.toFinset then .ok amounts
    else .error .assertionFailed

/-- The item total computed by `services.apply_itemized_mode_breakdown`:
`_round_minor(Decimal(unit_price_minor) * quantity)`. -/
def item_total_minor (unit_price_minor : ℤ) (quantity : ℚ) : ℤ :=
  round_minor ((unit_price_minor : ℚ) * quantity)

/-- An `ExpenseItemShare` row as the service constructs it. -/
structure ItemShareRow where
  user : UserId
  amount_minor : Option ℤ
  weight : Option ℚ
  deriving DecidableEq, Repr

/-- The share rows built by the weight-based branch of
`services.apply_itemized_mode_breakdown` for one item: each `(user, w)`
pair yields a row whose `weight` is `w` whenever any weight in the item
is nonzero (and `None` otherwise) and whose `amount_minor` is always the
allocated amount `alloc[user]`. -/
def itemized_weight_share_rows (item_total : ℤ)
    (pairs : List (UserId × ℚ)) : List ItemShareRow :=
  let alloc := distribute_by_weights item_total pairs
  let anyW := pairs.any fun p => p.2 ≠ 0
  pairs.map fun p =>
    { user := p.1
      amount_minor := ((alloc.find? fun a => a.1 = p.1).map Prod.snd)
      weight := if anyW then some p.2 else none }

end services

namespace models

/-- Embedding of the `ExpenseItem.total_minor` property:
`int(Decimal(self.unit_price_minor) * self.quantity)`, i.e. truncation
toward zero, not rounding. -/
def expenseItem_total_minor (unit_price_minor : ℤ) (quantity : ℚ) : ℤ :=
  ratTrunc ((unit_price_minor : ℚ) * quantity)

/-- The database check constraint `itemshare_either_amount_or_weight` on
`ExpenseItemShare`: exactly one of `amount_minor` and `weight` is set. -/
def itemshare_constraint (r : services.ItemShareRow) : Bool :=
  (r.amount_minor.isSome && r.weight.isNone) ||
    (r.amount_minor.isNone && r.weight.isSome)

end models

namespace serializers

/-- One entry of the write-only `splits` payload
(`ExpenseSplitSerializer`): `user_id`, `paid_amount_minor`,
`owed_amount_minor` (both defaulting to 0). -/
structure SplitIn where
  user : UserId
  paid : ℤ
  owed : ℤ
  deriving DecidableEq, Repr

/-- Field-level validation of `ExpenseSplitSerializer`: both integer
fields carry `min_value=0`. -/
def splitIn_fields_ok (s : SplitIn) : Bool := 0 ≤ s.paid && 0 ≤ s.owed

/-- One entry of an item's `shares` payload
(`ExpenseItemShareInSerializer`). -/
structure ItemShareIn where
  user : UserId
  amount_minor : Option ℤ
  weight : Option ℚ
  deriving DecidableEq, Repr

/-- Field-level validation of `ExpenseItemShareInSerializer`:
`amount_minor` carries `min_value=0`; `weight` has no bound. -/
def itemShareIn_fields_ok (s : ItemShareIn) : Bool :=
  match s.amount_minor with
  | some a => decide (0 ≤ a)
  | none => true

/-- The `validate` method of `ExpenseItemShareInSerializer`: exactly one
of `amount_minor` and `weight` must be provided. -/
def itemShareIn_validate (s : ItemShareIn) : Bool :=
  !((s.amount_minor.isNone) == (s.weight.isNone))

/-- One entry of the `items` payload (`ExpenseItemInSerializer`);
`quantity` defaults to 1. -/
structure ItemIn where
  quantity : ℚ
  unit_price_minor : ℤ
  shares : List ItemShareIn
  deriving DecidableEq, Repr

/-- Embedding of `ExpenseDetailSerializer._sum_items_total`:
`total += int(qty * int(it["unit_price_minor"]))` — truncation toward
zero, not rounding. -/
def sum_items_total (items : List ItemIn) : ℤ :=
  (items.map fun it => ratTrunc (it.quantity * (it.unit_price_minor : ℚ))).sum

/-- The proportional loop of the weight-based branch of
`ExpenseDetailSerializer._compute_itemized_owed_map`: identical to the
service loop except that the rounding is
`Decimal.quantize(Decimal("1"))`, i.e. half-to-even. -/
def itemEvenLoop (total : ℤ) (W : ℚ) :
    List (UserId × ℚ) → ℤ → List (UserId × ℤ)
  | [], _ => []
  | [p], acc => [(p.1, total - acc)]
  | p :: q :: rest, acc =>
    let amt := roundHalfEven ((total : ℚ) * (p.2 / W))
    (p.1, amt) :: itemEvenLoop total W (q :: rest) (acc + amt)

/-- The weight-based allocation of one item inside
`_compute_itemized_owed_map` (zero total weight: equal split with the
leftover going to the first users; otherwise the proportional loop). -/
def itemWeightAlloc (item_total : ℤ) (wpairs : List (UserId × ℚ)) :
    List (UserId × ℤ) :=
  let total_w := (wpairs.map Prod.snd).sum
  if total_w = 0 then
    (wpairs.map Prod.fst).zip (equalSplitAmounts item_total wpairs.length)
  else
    itemEvenLoop item_total total_w wpairs 0

/-- Ordered-dict accumulation `user_totals[u] = user_totals.get(u, 0) + a`. -/
def addOwed (m : List (UserId × ℤ)) (u : UserId) (a : ℤ) : List (UserId × ℤ) :=
  if m.any fun p => p.1 = u then
    m.map fun p => if p.1 = u then (p.1, p.2 + a) else p
  else m ++ [(u, a)]

/-- Validation errors raised by the serializer layer. -/
inductive SerializerErr where
  | mixedShareKinds
  | explicitSumMismatch
  | missingSplits
  | missingTotal
  | paidSumMismatch
  | owedSumMismatch
  | fieldInvalid
  deriving DecidableEq, Repr

/-- Embedding of `ExpenseDetailSerializer._compute_itemized_owed_map`:
per item, either explicit amounts (which must sum to the truncated item
total) or the weight-based allocation; the per-user amounts accumulate
across items in first-insertion order. -/
def compute_itemized_owed_map (items : List ItemIn) :
    Except SerializerErr (List (UserId × ℤ)) :=
  go items []
where
  /-- Fold over the items, threading the accumulated per-user totals. -/
  go : List ItemIn → List (UserId × ℤ) → Except SerializerErr (List (UserId × ℤ))
    | [], acc => .ok acc
    | it :: rest, acc =>
      let item_total := ratTrunc (it.quantity * (it.unit_price_minor : ℚ))
      let explicit := it.shares.filter fun s => s.amount_minor.isSome
      let weights := it.shares.filter fun s => s.weight.isSome
      if explicit ≠ [] ∧ weights ≠ [] then .error .mixedShareKinds
      else
        let alloc :=
          if explicit ≠ [] then
            explicit.map fun s => (s.user, s.amount_minor.getD 0)
          else
            itemWeightAlloc item_total
              (it.shares.map fun s => (s.user, s.weight.getD 0))
        if explicit ≠ [] ∧ (alloc.map Prod.snd).sum ≠ item_total then
          .error .explicitSumMismatch
        else
          go rest (alloc.foldl (fun m p => addOwed m p.1 p.2) acc)

end serializers

/-- The persisted rows of one expense that the TOTAL-mode claims are
about: the stored total and the payer/participant rows. -/
structure ExpenseState where
  total_amount_minor : ℤ
  payers : List (UserId × ℤ)
  participants : List (UserId × ℤ)
  deriving DecidableEq, Repr

/-- Sum of the stored `paid_amount_minor` values. -/
def paidSum (st : ExpenseState) : ℤ := (st.payers.map Prod.snd).sum

/-- Sum of the stored `owed_amount_minor` values. -/
def owedSum (st : ExpenseState) : ℤ := (st.participants.map Prod.snd).sum

namespace serializers

/-- Embedding of the TOTAL-mode part of `ExpenseDetailSerializer.validate`
(with the field-level `min_value=0` checks of `ExpenseSplitSerializer`
run first, as DRF does).  `patchMode` is `self.partial`; `instTotal` is
the instance total if updating.  When `patchMode` is set and no splits
were sent, the sum checks are skipped. -/
def validateTotal (patchMode : Bool) (instTotal : Option ℤ)
    (total? : Option ℤ) : Option (List SplitIn) → Except SerializerErr Unit
  | none => if patchMode = false then .error .missingSplits else .ok ()
  | some s =>
    if s.all splitIn_fields_ok = false then .error .fieldInvalid
    else if s = [] then .error .missingSplits
    else
      match total?.orElse fun _ => instTotal with
      | none => .error .missingTotal
      | some t =>
        if (s.map SplitIn.paid).sum ≠ t then .error .paidSumMismatch
        else if (s.map SplitIn.owed).sum ≠ t then .error .owedSumMismatch
        else .ok ()

/-- The TOTAL-mode row construction shared by
`ExpenseDetailSerializer.create` and `.update`: rows are created only for
strictly positive amounts. -/
def rowsFromSplits (s : List SplitIn) : List (UserId × ℤ) × List (UserId × ℤ) :=
  ((s.filter fun x => 0 < x.paid).map fun x => (x.user, x.paid),
   (s.filter fun x => 0 < x.owed).map fun x => (x.user, x.owed))

/-- Embedding of `ExpenseDetailSerializer.update` in TOTAL mode (after
validation): the scalar fields are updated, and the payer/participant
rows are deleted and rebuilt only when a `splits` payload was sent. -/
def updateTotal (st : ExpenseState) (total? : Option ℤ)
    (splits? : Option (List SplitIn)) : ExpenseState :=
  let st1 := { st with total_amount_minor := total?.getD st.total_amount_minor }
  match splits? with
  | none => st1
  | some s =>
    { st1 with payers := (rowsFromSplits s).1, participants := (rowsFromSplits s).2 }

/-- A TOTAL-mode PATCH (the serializer with `partial=True`): validate,
then update.  This is the path taken by `partial_update` and by an
approved edit request. -/
def patchTotal (st : ExpenseState) (total? : Option ℤ)
    (splits? : Option (List SplitIn)) : Except SerializerErr ExpenseState :=
  match validateTotal true (some st.total_amount_minor) total? splits? with
  | .error e => .error e
  | .ok _ => .ok (updateTotal st total? splits?)

/-- A TOTAL-mode PUT (the serializer with `partial=False`): validate,
then update. -/
def putTotal (st : ExpenseState) (total? : Option ℤ)
    (splits? : Option (List SplitIn)) : Except SerializerErr ExpenseState :=
  match validateTotal false (some st.total_amount_minor) total? splits? with
  | .error e => .error e
  | .ok _ => .ok (updateTotal st total? splits?)

/-- Embedding of `ExpenseDetailSerializer.create` in TOTAL mode:
validate with no instance, then build the rows from the splits. -/
def createTotal (total? : Option ℤ) (splits? : Option (List SplitIn)) :
    Except SerializerErr ExpenseState :=
  match validateTotal false none total? splits? with
  | .error e => .error e
  | .ok _ =>
    match total? with
    | none => .error .missingTotal
    | some t =>
      match splits? with
      | none => .error .missingSplits
      | some s => .ok ⟨t, (rowsFromSplits s).1, (rowsFromSplits s).2⟩

end serializers

namespace views

/-- Embedding of `ExpenseViewSet._payer_ids` (and the identical helper in
`permissions.py`): the users with `paid_amount_minor > 0`.  Payer rows
are unique per `(expense, user)`, so the stored list already has
distinct users and the Python `set` is modelled by the filtered list. -/
def payer_ids (st : ExpenseState) : List UserId :=
  (st.payers.filter fun p => 0 < p.2).map Prod.fst

/-- The two approvable actions. -/
inductive ActionKind where
  | delete
  | edit
  deriving DecidableEq, Repr

/-- An `ExpenseActionRequest` row together with its `ExpenseActionApproval`
rows (`approvals` lists the approving users in creation order;
`unique_together (request, user)` makes it duplicate-free). -/
structure ActionRequest where
  rid : ℕ
  action : ActionKind
  required_count : ℕ
  approvals : List UserId
  is_completed : Bool
  created_at : ℕ
  payload_total : Option ℤ
  payload_splits : Option (List serializers.SplitIn)
  deriving DecidableEq, Repr

/-- Outcome of `request_delete` / `request_edit`. -/
inductive RequestResult where
  | forbidden
  | deletedNow
  | editedNow (st : ExpenseState)
  | editInvalid
  | created (req : ActionRequest)
  deriving DecidableEq, Repr

/-- Embedding of `ExpenseViewSet.request_delete`: requester must be a
payer; with at most one payer the expense is deleted immediately and no
request row is created; otherwise an `ExpenseActionRequest` is created
with `required_count` equal to the payer count and the requester's own
approval recorded at once. -/
def request_delete (st : ExpenseState) (user : UserId) (rid now : ℕ) :
    RequestResult :=
  let payers := payer_ids st
  if user ∉ payers then .forbidden
  else if payers.length ≤ 1 then .deletedNow
  else .created ⟨rid, .delete, payers.length, [user], false, now, none, none⟩

/-- Embedding of `ExpenseViewSet.request_edit` restricted to TOTAL-mode
patches: requester must be a payer; with at most one payer the patch is
applied immediately through the serializer (no request row); otherwise a
request row is created carrying the patch as payload, with the
requester's own approval recorded at once. -/
def request_edit (st : ExpenseState) (user : UserId)
    (total? : Option ℤ) (splits? : Option (List serializers.SplitIn))
    (rid now : ℕ) : RequestResult :=
  let payers := payer_ids st
  if user ∉ payers then .forbidden
  else if payers.length ≤ 1 then
    match serializers.patchTotal st total? splits? with
    | .ok st1 => .editedNow st1
    | .error _ => .editInvalid
  else .created ⟨rid, .edit, payers.length, [user], false, now, total?, splits?⟩

/-- Idempotent approval recording
(`ExpenseActionApproval.objects.get_or_create`). -/
def recordApproval (approvals : List UserId) (user : UserId) : List UserId :=
  if user ∈ approvals then approvals else approvals ++ [user]

/-- One step of the latest-created scan backing the
`order_by("-created_at").first()` lookup. -/
def pickLatest (best : Option ActionRequest) (r : ActionRequest) :
    Option ActionRequest :=
  match best with
  | none => some r
  | some b => if b.created_at < r.created_at then some r else some b

/-- Embedding of the request lookup in `ExpenseViewSet.approve`:
`filter(expense, action, is_completed=False).order_by("-created_at").first()`
— the latest-created incomplete request for the action, or none. -/
def selectRequest (reqs : List ActionRequest) (a : ActionKind) :
    Option ActionRequest :=
  (reqs.filter fun r => r.action == a && r.is_completed == false).foldl
    pickLatest none

/-- Replace the request row with the given `rid` by its updated value. -/
def updateReq (reqs : List ActionRequest) (r : ActionRequest) :
    List ActionRequest :=
  reqs.map fun x => if x.rid = r.rid then r else x

/-- Outcome of `ExpenseViewSet.approve`. -/
inductive ApproveResult where
  | forbidden
  | notFound
  | applied (reqs : List ActionRequest) (st? : Option ExpenseState)
  | pending (reqs : List ActionRequest)
  | editInvalid
  deriving DecidableEq, Repr

/-- Embedding of `ExpenseViewSet.approve`: the approver must be in the
current payer set; the latest incomplete request for the action is
looked up (404 when there is none); the approval is recorded
idempotently; if the approval count now reaches `required_count` the
action is applied (delete removes the expense, edit applies the stored
payload through the serializer) and the request is marked completed,
else the pending state is returned.  An invalid edit payload raises
inside the transaction, which rolls back. -/
def approve (st : ExpenseState) (reqs : List ActionRequest)
    (user : UserId) (a : ActionKind) : ApproveResult :=
  if user ∉ payer_ids st then .forbidden
  else
    match selectRequest reqs a with
    | none => .notFound
    | some req =>
      let approvals := recordApproval req.approvals user
      if req.required_count ≤ approvals.length then
        match a with
        | .delete =>
          .applied (updateReq reqs
            { req with approvals := approvals, is_completed := true }) none
        | .edit =>
          match serializers.patchTotal st req.payload_total req.payload_splits with
          | .ok st1 =>
            .applied (updateReq reqs
              { req with approvals := approvals, is_completed := true }) (some st1)
          | .error _ => .editInvalid
      else .pending (updateReq reqs { req with approvals := approvals })

/-- Outcome of a direct (non-request) mutation endpoint. -/
inductive MutateResult where
  | forbidden (st : ExpenseState)
  | conflict (st : ExpenseState)
  | invalid (st : ExpenseState)
  | deleted
  | ok (st : ExpenseState)
  deriving DecidableEq, Repr

/-- Embedding of `ExpenseViewSet.destroy`: permission classes require the
requester to be a payer; with more than one payer the direct delete is
refused with 409 CONFLICT, leaving the expense unchanged. -/
def destroyView (st : ExpenseState) (user : UserId) : MutateResult :=
  if user ∉ payer_ids st then .forbidden st
  else if 1 < (payer_ids st).length then .conflict st
  else .deleted

/-- Embedding of `ExpenseViewSet.partial_update` (TOTAL mode): requester
must be a payer; with more than one payer the direct PATCH is refused
with 409 CONFLICT; otherwise the serializer applies the patch. -/
def patchUpdateView (st : ExpenseState) (user : UserId)
    (total? : Option ℤ) (splits? : Option (List serializers.SplitIn)) :
    MutateResult :=
  if user ∉ payer_ids st then .forbidden st
  else if 1 < (payer_ids st).length then .conflict st
  else
    match serializers.patchTotal st total? splits? with
    | .ok st1 => .ok st1
    | .error _ => .invalid st

/-- Embedding of a direct PUT to `ExpenseViewSet` (TOTAL mode): the
viewset does not override `update`, so after the payer permission check
the inherited `UpdateModelMixin.update` runs the serializer directly —
there is no payer-count guard on this path. -/
def putUpdateView (st : ExpenseState) (user : UserId)
    (total? : Option ℤ) (splits? : Option (List serializers.SplitIn)) :
    MutateResult :=
  if user ∉ payer_ids st then .forbidden st
  else
    match serializers.putTotal st total? splits? with
    | .ok st1 => .ok st1
    | .error _ => .invalid st

end views

section EqualSplitLemmas

theorem length_equalSplitAmounts (total : ℤ) (n : ℕ) :
    (equalSplitAmounts total n).length = n := by
  simp [equalSplitAmounts]

theorem get_equalSplitAmounts (total : ℤ) (n : ℕ) (i : ℕ)
    (hi : i < (equalSplitAmounts total n).length) :
    (equalSplitAmounts total n).get ⟨i, hi⟩ =
      if (i : ℤ) < total - total.fdiv n * n
      then total.fdiv n + 1 else total.fdiv n := by
  simp [equalSplitAmounts]

theorem sum_range_if_all (n : ℕ) (each r : ℤ) (h : (n : ℤ) ≤ r) :
    ((List.range n).map fun i : ℕ => if (i : ℤ) < r then each + 1 else each).sum
      = n * (each + 1) := by
  induction n with
  | zero => simp
  | succ m ih =>
    rw [List.range_succ, List.map_append, List.sum_append]
    have hm : (m : ℤ) ≤ r := le_trans (by exact_mod_cast Nat.le_succ m) h
    have hlt : (m : ℤ) < r := lt_of_lt_of_le (by exact_mod_cast Nat.lt_succ_self m) h
    rw [ih hm]
    simp [if_pos hlt]
    ring

theorem sum_range_if (n : ℕ) (each r : ℤ) (h0 : 0 ≤ r) (hn : r ≤ n) :
    ((List.range n).map fun i : ℕ => if (i : ℤ) < r then each + 1 else each).sum
      = n * each + r := by
  induction n with
  | zero =>
    have : r = 0 := le_antisymm (by exact_mod_cast hn) h0
    simp [this]
  | succ m ih =>
    rcases le_or_lt r m with hle | hgt
    · rw [List.range_succ, List.map_append, List.sum_append, ih hle]
      have hnlt : ¬ ((m : ℤ) < r) := not_lt.mpr (by exact_mod_cast hle)
      simp [if_neg hnlt]
      ring
    · have hr : r = (m : ℤ) + 1 := by
        have h1 : (m : ℤ) + 1 ≤ r := by exact_mod_cast hgt
        have h2 : r ≤ (m : ℤ) + 1 := by exact_mod_cast hn
        omega
      rw [sum_range_if_all (m + 1) each r (by rw [hr]; push_cast; omega)]
      rw [hr]
      push_cast
      ring

theorem sum_equalSplitAmounts (total : ℤ) (n : ℕ) (hn : 0 < n) :
    (equalSplitAmounts total n).sum = total := by
  have hnz : ((n : ℤ)) ≠ 0 := by exact_mod_cast Nat.pos_iff_ne_zero.mp hn
  have hpos : (0 : ℤ) < (n : ℤ) := by exact_mod_cast hn
  have hfd : total.fdiv n = total / (n : ℤ) :=
    Int.fdiv_eq_ediv total (by positivity)
  have hid := Int.ediv_add_emod total (n : ℤ)
  have hcomm : total / (n : ℤ) * (n : ℤ) = (n : ℤ) * (total / (n : ℤ)) :=
    mul_comm _ _
  have hmodnn := Int.emod_nonneg total hnz
  have hmodlt := Int.emod_lt_of_pos total hpos
  have h0 : 0 ≤ total - total.fdiv n * n := by rw [hfd]; omega
  have h1 : total - total.fdiv n * n ≤ (n : ℤ) := by rw [hfd]; omega
  simp only [equalSplitAmounts]
  rw [sum_range_if n (total.fdiv n) (total - total.fdiv n * n) h0 h1]
  rw [hfd]
  omega

theorem mem_equalSplitAmounts (total : ℤ) (n : ℕ) (x : ℤ)
    (hx : x ∈ equalSplitAmounts total n) :
    x = total.fdiv n ∨ x = total.fdiv n + 1 := by
  rw [equalSplitAmounts] at hx
  rcases List.mem_map.mp hx with ⟨i, _, hival⟩
  by_cases h : (i : ℤ) < total - total.fdiv n * n
  · right; rw [← hival, if_pos h]
  · left; rw [← hival, if_neg h]

end EqualSplitLemmas

/-- C1: in TOTAL mode with the `equally` breakdown, for any total `T` and
any nonempty duplicate-free participant list of length `N`, the service
stores one row per participant in input order, giving `T.fdiv N + 1` to
the first `T - N * (T.fdiv N)` participants and `T.fdiv N` to the rest;
every amount is `T.fdiv N` or `T.fdiv N + 1` and the amounts sum to `T`. -/
theorem equally_breakdown_correct (total : ℤ) (ps : List UserId)
    (hne : ps ≠ []) (hnd : ps.Nodup) :
    ∃ out, services.apply_total_mode_breakdown_equally total ps = .ok out ∧
      out.map Prod.fst = ps ∧
      (∀ i (hi : i < out.length),
        (out.get ⟨i, hi⟩).2 =
          if (i : ℤ) < total - total.fdiv ps.length * ps.length
          then total.fdiv ps.length + 1 else total.fdiv ps.length) ∧
      (out.map Prod.snd).sum = total ∧
      ∀ p ∈ out, p.2 = total.fdiv ps.length ∨ p.2 = total.fdiv ps.length + 1 := by
  have hdedup : dedupKeepFirst ps = ps := dedupKeepFirst_of_nodup hnd
  have hnotempty : ps.isEmpty = false := by
    cases ps with
    | nil => exact absurd rfl hne
    | cons a l => rfl
  have hlen : (equalSplitAmounts total ps.length).length = ps.length :=
    length_equalSplitAmounts total ps.length
  refine ⟨ps.zip (equalSplitAmounts total ps.length), ?_, ?_, ?_, ?_, ?_⟩
  · rw [services.apply_total_mode_breakdown_equally, hdedup]
    rw [if_neg (by rw [hnotempty]; exact Bool.false_ne_true)]
  · exact List.map_fst_zip ps _ (le_of_eq hlen.symm)
  · intro i hi
    have hi2 : i < ps.length := by
      have hz : (ps.zip (equalSplitAmounts total ps.length)).length =
          min ps.length (equalSplitAmounts total ps.length).length :=
        List.length_zip ps (equalSplitAmounts total ps.length)
      omega
    have hi3 : i < (equalSplitAmounts total ps.length).length := by omega
    rw [List.get_eq_getElem, List.getElem_zip]
    have := get_equalSplitAmounts total ps.length i hi3
    rw [List.get_eq_getElem] at this
    exact this
  · rw [List.map_snd_zip ps _ (le_of_eq hlen)]
    exact sum_equalSplitAmounts total ps.length (by
      cases ps with
      | nil => exact absurd rfl hne
      | cons a l => exact Nat.succ_pos l.length)
  · intro p hp
    have := (List.of_mem_zip hp).2
    exact mem_equalSplitAmounts total ps.length p.2 this

/-- Witness for C1 at the spec's Scenario A: total 100000 over three
participants gives 33334, 33333, 33333 in input order. -/
theorem equally_breakdown_correct_witness :
    ([1, 2, 3] : List UserId) ≠ [] ∧ ([1, 2, 3] : List UserId).Nodup ∧
      (∃ out, services.apply_total_mode_breakdown_equally 100000 [1, 2, 3] = .ok out ∧
        out.map Prod.fst = [1, 2, 3] ∧
        (∀ i (hi : i < out.length),
          (out.get ⟨i, hi⟩).2 =
            if (i : ℤ) < 100000 - (100000 : ℤ).fdiv ([1, 2, 3] : List UserId).length * ([1, 2, 3] : List UserId).length
            then (100000 : ℤ).fdiv ([1, 2, 3] : List UserId).length + 1
            else (100000 : ℤ).fdiv ([1, 2, 3] : List UserId).length) ∧
        (out.map Prod.snd).sum = 100000 ∧
        ∀ p ∈ out, p.2 = (100000 : ℤ).fdiv ([1, 2, 3] : List UserId).length ∨
          p.2 = (100000 : ℤ).fdiv ([1, 2, 3] : List UserId).length + 1) :=
  ⟨by decide, by decide,
    equally_breakdown_correct 100000 [1, 2, 3] (by decide) (by decide)⟩

example :
    services.apply_total_mode_breakdown_equally 100000 [1, 2, 3] =
      .ok [(1, 33334), (2, 33333), (3, 33333)] := by decide

/-- Modelled from the spec's words (refinement target for the weight-based
allocation): every user except the last, in input order, receives
`round_half_up(total × weight / W)`; the last receives `total` minus the
sum already allocated. -/
def specWeightAllocUp (total : ℤ) (shares : List (UserId × ℚ)) :
    List (UserId × ℤ) :=
  let W := (shares.map Prod.snd).sum
  let firsts := shares.dropLast.map fun p =>
    (p.1, roundHalfUp ((total : ℚ) * (p.2 / W)))
  match shares.getLast? with
  | none => []
  | some p => firsts ++ [(p.1, total - (firsts.map Prod.snd).sum)]

/-- The same shape as `specWeightAllocUp` but rounding half to even — what
the serializer's itemized weight branch actually computes. -/
def specWeightAllocEven (total : ℤ) (shares : List (UserId × ℚ)) :
    List (UserId × ℤ) :=
  let W := (shares.map Prod.snd).sum
  let firsts := shares.dropLast.map fun p =>
    (p.1, roundHalfEven ((total : ℚ) * (p.2 / W)))
  match shares.getLast? with
  | none => []
  | some p => firsts ++ [(p.1, total - (firsts.map Prod.snd).sum)]

section WeightLoopLemmas

theorem distributeLoop_spec (total : ℤ) (W : ℚ) :
    ∀ (l : List (UserId × ℚ)) (acc : ℤ) (h : l ≠ []),
      services.distributeLoop total W l acc =
        (l.dropLast.map fun q => (q.1, roundHalfUp ((total : ℚ) * (q.2 / W)))) ++
          [((l.getLast h).1,
            total - acc -
              ((l.dropLast.map fun q => roundHalfUp ((total : ℚ) * (q.2 / W))).sum))] := by
  intro l
  induction l with
  | nil => intro acc h; exact absurd rfl h
  | cons p tail ih =>
    intro acc h
    cases tail with
    | nil =>
      simp [services.distributeLoop]
    | cons q rest =>
      rw [services.distributeLoop]
      rw [ih (acc + services.round_minor ((total : ℚ) * (p.2 / W))) (by simp)]
      have hgl : (p :: q :: rest).getLast h
          = (q :: rest).getLast (List.cons_ne_nil q rest) := rfl
      rw [List.dropLast_cons₂, hgl]
      simp [services.round_minor]
      ring

theorem itemEvenLoop_spec (total : ℤ) (W : ℚ) :
    ∀ (l : List (UserId × ℚ)) (acc : ℤ) (h : l ≠ []),
      serializers.itemEvenLoop total W l acc =
        (l.dropLast.map fun q => (q.1, roundHalfEven ((total : ℚ) * (q.2 / W)))) ++
          [((l.getLast h).1,
            total - acc -
              ((l.dropLast.map fun q => roundHalfEven ((total : ℚ) * (q.2 / W))).sum))] := by
  intro l
  induction l with
  | nil => intro acc h; exact absurd rfl h
  | cons p tail ih =>
    intro acc h
    cases tail with
    | nil =>
      simp [serializers.itemEvenLoop]
    | cons q rest =>
      rw [serializers.itemEvenLoop]
      rw [ih (acc + roundHalfEven ((total : ℚ) * (p.2 / W))) (by simp)]
      have hgl : (p :: q :: rest).getLast h
          = (q :: rest).getLast (List.cons_ne_nil q rest) := rfl
      rw [List.dropLast_cons₂, hgl]
      simp
      ring

theorem specWeightAllocUp_sum (total : ℤ) (shares : List (UserId × ℚ))
    (h : shares ≠ []) :
    ((specWeightAllocUp total shares).map Prod.snd).sum = total := by
  rw [specWeightAllocUp, List.getLast?_eq_getLast shares h]
  simp

theorem specWeightAllocEven_sum (total : ℤ) (shares : List (UserId × ℚ))
    (h : shares ≠ []) :
    ((specWeightAllocEven total shares).map Prod.snd).sum = total := by
  rw [specWeightAllocEven, List.getLast?_eq_getLast shares h]
  simp

end WeightLoopLemmas

theorem distribute_by_weights_of_ne_zero (total : ℤ)
    (shares : List (UserId × ℚ)) (h : shares ≠ [])
    (hW : (shares.map Prod.snd).sum ≠ 0) :
    services.distribute_by_weights total shares = specWeightAllocUp total shares := by
  obtain ⟨p, l, rfl⟩ := List.exists_cons_of_ne_nil h
  rw [services.distribute_by_weights, if_neg hW,
    distributeLoop_spec total _ (p :: l) 0 (by simp),
    specWeightAllocUp, List.getLast?_eq_getLast (p :: l) (by simp)]
  · simp [List.map_map, Function.comp_def]
  · simp

theorem distribute_by_weights_of_zero (total : ℤ)
    (shares : List (UserId × ℚ))
    (hW : (shares.map Prod.snd).sum = 0) :
    services.distribute_by_weights total shares =
      (shares.map Prod.fst).zip (equalSplitAmounts total shares.length) := by
  cases shares with
  | nil => rfl
  | cons p l =>
    rw [services.distribute_by_weights, if_pos hW]
    simp

theorem distribute_by_weights_sum (total : ℤ)
    (shares : List (UserId × ℚ)) (h : shares ≠ []) :
    ((services.distribute_by_weights total shares).map Prod.snd).sum = total := by
  by_cases hW : (shares.map Prod.snd).sum = 0
  · rw [distribute_by_weights_of_zero total shares hW]
    rw [List.map_snd_zip _ _ (by simp [length_equalSplitAmounts])]
    exact sum_equalSplitAmounts total shares.length
      (by cases shares with
          | nil => exact absurd rfl h
          | cons p l => exact Nat.succ_pos l.length)
  · rw [distribute_by_weights_of_ne_zero total shares h hW]
    exact specWeightAllocUp_sum total shares h

theorem itemWeightAlloc_of_ne_zero (total : ℤ)
    (shares : List (UserId × ℚ)) (h : shares ≠ [])
    (hW : (shares.map Prod.snd).sum ≠ 0) :
    serializers.itemWeightAlloc total shares = specWeightAllocEven total shares := by
  obtain ⟨p, l, rfl⟩ := List.exists_cons_of_ne_nil h
  rw [serializers.itemWeightAlloc]
  rw [if_neg hW, itemEvenLoop_spec total _ (p :: l) 0 (by simp),
    specWeightAllocEven, List.getLast?_eq_getLast (p :: l) (by simp)]
  simp [List.map_map, Function.comp_def]

theorem itemWeightAlloc_of_zero (total : ℤ)
    (shares : List (UserId × ℚ))
    (hW : (shares.map Prod.snd).sum = 0) :
    serializers.itemWeightAlloc total shares =
      (shares.map Prod.fst).zip (equalSplitAmounts total shares.length) := by
  rw [serializers.itemWeightAlloc, if_pos hW]

theorem itemWeightAlloc_sum (total : ℤ)
    (shares : List (UserId × ℚ)) (h : shares ≠ []) :
    ((serializers.itemWeightAlloc total shares).map Prod.snd).sum = total := by
  by_cases hW : (shares.map Prod.snd).sum = 0
  · rw [itemWeightAlloc_of_zero total shares hW]
    rw [List.map_snd_zip _ _ (by simp [length_equalSplitAmounts])]
    exact sum_equalSplitAmounts total shares.length
      (by cases shares with
          | nil => exact absurd rfl h
          | cons p l => exact Nat.succ_pos l.length)
  · rw [itemWeightAlloc_of_ne_zero total shares h hW]
    exact specWeightAllocEven_sum total shares h

/-- C2 (amended): with nonzero total weight `W`, the service allocator
(`_distribute_by_weights`, used by TOTAL-mode `shares` and by the itemized
service) gives every user but the last `round_half_up(T × w / W)` and the
last user `T` minus the sum already allocated; the serializer's per-item
weight-based allocation in ITEMIZED mode has the same last-user-absorbs
shape but rounds halves to even (`Decimal.quantize` default), not up.
With `W = 0` both produce the equal split over the same user list; in
every case the allocated amounts sum to exactly `T`. -/
theorem weight_distribution_amended :
    (∀ (total : ℤ) (shares : List (UserId × ℚ)), shares ≠ [] →
      (shares.map Prod.snd).sum ≠ 0 →
        services.distribute_by_weights total shares =
          specWeightAllocUp total shares) ∧
    (∀ (total : ℤ) (shares : List (UserId × ℚ)),
      (shares.map Prod.snd).sum = 0 →
        services.distribute_by_weights total shares =
          (shares.map Prod.fst).zip (equalSplitAmounts total shares.length)) ∧
    (∀ (total : ℤ) (shares : List (UserId × ℚ)), shares ≠ [] →
      ((services.distribute_by_weights total shares).map Prod.snd).sum = total) ∧
    (∀ (total : ℤ) (shares : List (UserId × ℚ)), shares ≠ [] →
      (shares.map Prod.snd).sum ≠ 0 →
        serializers.itemWeightAlloc total shares =
          specWeightAllocEven total shares) ∧
    (∀ (total : ℤ) (shares : List (UserId × ℚ)),
      (shares.map Prod.snd).sum = 0 →
        serializers.itemWeightAlloc total shares =
          (shares.map Prod.fst).zip (equalSplitAmounts total shares.length)) ∧
    (∀ (total : ℤ) (shares : List (UserId × ℚ)), shares ≠ [] →
      ((serializers.itemWeightAlloc total shares).map Prod.snd).sum = total) :=
  ⟨distribute_by_weights_of_ne_zero, distribute_by_weights_of_zero,
   distribute_by_weights_sum, itemWeightAlloc_of_ne_zero,
   itemWeightAlloc_of_zero, itemWeightAlloc_sum⟩

unseal Rat.mul Rat.add Rat.inv Rat.sub in
/-- Witness for C2 at the spec's Scenario B: total 100 with weights
1, 1, 1 gives 33, 33 and a last absorbed 34, summing to 100. -/
theorem weight_distribution_amended_witness :
    (([((1 : UserId), (1 : ℚ)), (2, 1), (3, 1)] : List (UserId × ℚ)) ≠ [] ∧
      (([((1 : UserId), (1 : ℚ)), (2, 1), (3, 1)].map Prod.snd).sum ≠ 0) ∧
      services.distribute_by_weights 100 [(1, 1), (2, 1), (3, 1)] =
        specWeightAllocUp 100 [(1, 1), (2, 1), (3, 1)]) ∧
    services.distribute_by_weights 100 [(1, 1), (2, 1), (3, 1)] =
      [(1, 33), (2, 33), (3, 34)] :=
  ⟨⟨by decide, by decide,
    weight_distribution_amended.1 100 [(1, 1), (2, 1), (3, 1)]
      (by decide) (by decide)⟩, by decide⟩

unseal Rat.mul Rat.add Rat.inv Rat.sub in
/-- C2 counterexample: on item total 1 with weights 1, 1 the serializer's
itemized weight allocation gives the first user
`round_half_even(1 × 1/2) = 0`, not `round_half_up(1 × 1/2) = 1` as the
claim states for the ITEMIZED path. -/
theorem serializer_weight_rounding_counterexample :
    serializers.itemWeightAlloc 1 [(1, 1), (2, 1)] = [(1, 0), (2, 1)] ∧
    specWeightAllocUp 1 [(1, 1), (2, 1)] = [(1, 1), (2, 0)] ∧
    serializers.itemWeightAlloc 1 [(1, 1), (2, 1)] ≠
      specWeightAllocUp 1 [(1, 1), (2, 1)] := by decide

theorem ratTrunc_eq_floor_of_nonneg {q : ℚ} (h : 0 ≤ q) : ratTrunc q = ⌊q⌋ := by
  rw [ratTrunc, if_pos h, ratFloor_eq_floor]

theorem roundHalfUp_eq_floor_of_nonneg {q : ℚ} (h : 0 ≤ q) :
    roundHalfUp q = ⌊q + 1/2⌋ := by
  rw [roundHalfUp, if_pos h, ratFloor_eq_floor]

unseal Rat.mul Rat.add Rat.inv Rat.sub in
/-- C3 counterexample: for quantity 5/2 and unit price 1001 the product is
2502.5; the model property `ExpenseItem.total_minor` truncates it to 2502
while `round_half_up` gives 2503, so the claim that every code path
computes `round_half_up(quantity × unit_price_minor)` is false. -/
theorem item_total_rounding_counterexample :
    models.expenseItem_total_minor 1001 (5/2) = 2502 ∧
    roundHalfUp ((1001 : ℚ) * (5/2)) = 2503 ∧
    models.expenseItem_total_minor 1001 (5/2) ≠
      roundHalfUp ((1001 : ℚ) * (5/2)) := by decide

/-- C3 (amended): the itemized service computes the derived item total as
`round_half_up(quantity × unit_price_minor)`, but the model property
`ExpenseItem.total_minor` and the serializer's item-total computations
truncate the product toward zero instead. For a nonnegative product the
two differ by at most one minor unit, and they agree exactly when the
product has no fractional part. -/
theorem item_total_paths (p : ℤ) (q : ℚ) (h : 0 ≤ (p : ℚ) * q) :
    services.item_total_minor p q = roundHalfUp ((p : ℚ) * q) ∧
    models.expenseItem_total_minor p q = ratTrunc ((p : ℚ) * q) ∧
    (∀ items : List serializers.ItemIn,
      serializers.sum_items_total items =
        (items.map fun it =>
          models.expenseItem_total_minor it.unit_price_minor it.quantity).sum) ∧
    models.expenseItem_total_minor p q ≤ services.item_total_minor p q ∧
    services.item_total_minor p q ≤ models.expenseItem_total_minor p q + 1 ∧
    (((p : ℚ) * q).den = 1 →
      services.item_total_minor p q = models.expenseItem_total_minor p q) := by
  have hs : services.item_total_minor p q = ⌊(p : ℚ) * q + 1/2⌋ := by
    rw [services.item_total_minor, services.round_minor,
      roundHalfUp_eq_floor_of_nonneg h]
  have hm : models.expenseItem_total_minor p q = ⌊(p : ℚ) * q⌋ := by
    rw [models.expenseItem_total_minor, ratTrunc_eq_floor_of_nonneg h]
  refine ⟨?_, rfl, ?_, ?_, ?_, ?_⟩
  · rw [services.item_total_minor, services.round_minor]
  · intro items
    rw [serializers.sum_items_total]
    congr 1
    refine List.map_congr_left fun it _ => ?_
    rw [models.expenseItem_total_minor, mul_comm ((it.unit_price_minor : ℚ))]
  · rw [hs, hm]
    exact Int.floor_le_floor (by linarith)
  · rw [hs, hm]
    have : ((p : ℚ) * q + 1/2) ≤ (p : ℚ) * q + 1 := by linarith
    calc ⌊(p : ℚ) * q + 1/2⌋ ≤ ⌊(p : ℚ) * q + 1⌋ := Int.floor_le_floor this
      _ = ⌊(p : ℚ) * q⌋ + 1 := by
        rw [show ((1 : ℚ)) = ((1 : ℤ) : ℚ) by norm_num, Int.floor_add_int]
  · intro hden
    have hnum : (((((p : ℚ) * q).num) : ℚ)) = (p : ℚ) * q :=
      (Rat.den_eq_one_iff _).mp hden
    rw [hs, hm, ← hnum]
    rw [Int.floor_intCast]
    rw [show ((((p : ℚ) * q).num : ℚ) + 1/2) = (((p : ℚ) * q).num : ℚ) + 1/2 from rfl]
    rw [Int.floor_int_add]
    norm_num

unseal Rat.mul Rat.add Rat.inv Rat.sub in
/-- Witness for C3's amended theorem at unit price 1001 and quantity 5/2:
the truncating paths give 2502, the service path 2503. -/
theorem item_total_paths_witness :
    (0 ≤ (1001 : ℚ) * (5/2)) ∧
      (services.item_total_minor 1001 (5/2) = roundHalfUp ((1001 : ℚ) * (5/2)) ∧
        models.expenseItem_total_minor 1001 (5/2) = ratTrunc ((1001 : ℚ) * (5/2)) ∧
        (∀ items : List serializers.ItemIn,
          serializers.sum_items_total items =
            (items.map fun it =>
              models.expenseItem_total_minor it.unit_price_minor it.quantity).sum) ∧
        models.expenseItem_total_minor 1001 (5/2) ≤ services.item_total_minor 1001 (5/2) ∧
        services.item_total_minor 1001 (5/2) ≤ models.expenseItem_total_minor 1001 (5/2) + 1 ∧
        (((1001 : ℚ) * (5/2)).den = 1 →
          services.item_total_minor 1001 (5/2) = models.expenseItem_total_minor 1001 (5/2))) :=
  ⟨by decide, item_total_paths 1001 (5/2) (by decide)⟩

section TotalModeLemmas

theorem sum_filter_pos {α : Type} (f : α → ℤ) :
    ∀ l : List α, (∀ x ∈ l, 0 ≤ f x) →
      ((l.filter fun x => decide (0 < f x)).map f).sum = (l.map f).sum := by
  intro l
  induction l with
  | nil => intro _; rfl
  | cons a t ih =>
    intro hall
    have ht := ih fun x hx => hall x (List.mem_cons_of_mem a hx)
    by_cases hp : 0 < f a
    · simp [List.filter_cons, hp, ht]
    · have h0 : f a = 0 :=
        le_antisymm (not_lt.mp hp) (hall a (List.mem_cons_self a t))
      simp [List.filter_cons, hp, ht, h0]

theorem splitIn_fields_ok_spec {s : List serializers.SplitIn}
    (h : s.all serializers.splitIn_fields_ok = true) :
    ∀ x ∈ s, 0 ≤ x.paid ∧ 0 ≤ x.owed := by
  intro x hx
  have := List.all_eq_true.mp h x hx
  simpa [serializers.splitIn_fields_ok] using this

theorem rows_paid_sum (s : List serializers.SplitIn)
    (h : ∀ x ∈ s, 0 ≤ x.paid) :
    (((serializers.rowsFromSplits s).1).map Prod.snd).sum =
      (s.map serializers.SplitIn.paid).sum := by
  rw [serializers.rowsFromSplits]
  simp only [List.map_map, Function.comp_def]
  exact sum_filter_pos serializers.SplitIn.paid s h

theorem rows_owed_sum (s : List serializers.SplitIn)
    (h : ∀ x ∈ s, 0 ≤ x.owed) :
    (((serializers.rowsFromSplits s).2).map Prod.snd).sum =
      (s.map serializers.SplitIn.owed).sum := by
  rw [serializers.rowsFromSplits]
  simp only [List.map_map, Function.comp_def]
  exact sum_filter_pos serializers.SplitIn.owed s h

theorem validateTotal_some_ok {pm : Bool} {it total? : Option ℤ}
    {s : List serializers.SplitIn}
    (h : serializers.validateTotal pm it total? (some s) = .ok ()) :
    s.all serializers.splitIn_fields_ok = true ∧ s ≠ [] ∧
      ∃ t, (total?.orElse fun _ => it) = some t ∧
        (s.map serializers.SplitIn.paid).sum = t ∧
        (s.map serializers.SplitIn.owed).sum = t := by
  rw [serializers.validateTotal] at h
  by_cases h1 : s.all serializers.splitIn_fields_ok = false
  · rw [if_pos h1] at h; cases h
  · rw [if_neg h1] at h
    by_cases h2 : s = []
    · rw [if_pos h2] at h; cases h
    · rw [if_neg h2] at h
      cases horelse : total?.orElse fun _ => it with
      | none => rw [horelse] at h; cases h
      | some t =>
        simp only [horelse] at h
        by_cases h3 : (s.map serializers.SplitIn.paid).sum ≠ t
        · rw [if_pos h3] at h; cases h
        · rw [if_neg h3] at h
          by_cases h4 : (s.map serializers.SplitIn.owed).sum ≠ t
          · rw [if_pos h4] at h; cases h
          · exact ⟨Bool.of_not_eq_false h1, h2, t, rfl,
              not_not.mp h3, not_not.mp h4⟩

end TotalModeLemmas

/-- C4 (amended): after a TOTAL-mode create, and after any TOTAL-mode
update or approved edit patch that includes a `splits` payload, the
stored payer rows and participant rows each sum to
`total_amount_minor`.  A partial update that omits `splits` leaves the
payer and participant rows untouched while still applying a new
`total_amount_minor`, so it can break the sum invariant. -/
theorem total_mode_sum_invariant :
    (∀ (total? : Option ℤ) (splits? : Option (List serializers.SplitIn))
        (st' : ExpenseState),
      serializers.createTotal total? splits? = .ok st' →
        paidSum st' = st'.total_amount_minor ∧
          owedSum st' = st'.total_amount_minor) ∧
    (∀ (st : ExpenseState) (total? : Option ℤ)
        (s : List serializers.SplitIn) (st' : ExpenseState),
      serializers.patchTotal st total? (some s) = .ok st' →
        paidSum st' = st'.total_amount_minor ∧
          owedSum st' = st'.total_amount_minor) ∧
    (∀ (st : ExpenseState) (total? : Option ℤ) (st' : ExpenseState),
      serializers.patchTotal st total? none = .ok st' →
        st'.payers = st.payers ∧ st'.participants = st.participants ∧
          st'.total_amount_minor = total?.getD st.total_amount_minor) := by
  refine ⟨?_, ?_, ?_⟩
  · intro total? splits? st' h
    rw [serializers.createTotal.eq_def] at h
    cases hv : serializers.validateTotal false none total? splits? with
    | error e => rw [hv] at h; cases h
    | ok u =>
      cases u
      rw [hv] at h
      cases total? with
      | none =>
        cases splits? with
        | none => cases h
        | some s => cases h
      | some t =>
        cases splits? with
        | none => cases h
        | some s =>
          cases h
          obtain ⟨hfields, hne, t', hor, hpaid, howed⟩ := validateTotal_some_ok hv
          have ht' : t' = t := by
            simp [Option.orElse] at hor
            omega
          have hall := splitIn_fields_ok_spec hfields
          constructor
          · show (((serializers.rowsFromSplits s).1).map Prod.snd).sum = t
            rw [← ht', rows_paid_sum s fun x hx => (hall x hx).1]
            exact hpaid
          · show (((serializers.rowsFromSplits s).2).map Prod.snd).sum = t
            rw [← ht', rows_owed_sum s fun x hx => (hall x hx).2]
            exact howed
  · intro st total? s st' h
    rw [serializers.patchTotal] at h
    cases hv : serializers.validateTotal true (some st.total_amount_minor)
        total? (some s) with
    | error e => rw [hv] at h; cases h
    | ok u =>
      cases u
      rw [hv] at h
      cases h
      obtain ⟨hfields, hne, t', hor, hpaid, howed⟩ := validateTotal_some_ok hv
      have hall := splitIn_fields_ok_spec hfields
      have htot : (serializers.updateTotal st total? (some s)).total_amount_minor = t' := by
        cases total? with
        | none =>
          have hred : (serializers.updateTotal st none (some s)).total_amount_minor
              = st.total_amount_minor := rfl
          rw [hred]
          simp [Option.orElse] at hor
          omega
        | some x =>
          have hred : (serializers.updateTotal st (some x) (some s)).total_amount_minor
              = x := rfl
          rw [hred]
          simp [Option.orElse] at hor
          omega
      have hp : (serializers.updateTotal st total? (some s)).payers =
          (serializers.rowsFromSplits s).1 := rfl
      have hq : (serializers.updateTotal st total? (some s)).participants =
          (serializers.rowsFromSplits s).2 := rfl
      constructor
      · rw [paidSum, htot, hp, rows_paid_sum s fun x hx => (hall x hx).1]
        exact hpaid
      · rw [owedSum, htot, hq, rows_owed_sum s fun x hx => (hall x hx).2]
        exact howed
  · intro st total? st' h
    rw [serializers.patchTotal] at h
    cases hv : serializers.validateTotal true (some st.total_amount_minor)
        total? none with
    | error e => rw [hv] at h; cases h
    | ok u =>
      cases u
      rw [hv] at h
      cases h
      refine ⟨rfl, rfl, rfl⟩

/-- C4 counterexample: a single-payer TOTAL expense holding
`total = 100` with payer and participant rows of 100 accepts a PATCH
that changes only `total_amount_minor` to 200; the rows are kept, and
both stored sums (100) now differ from the stored total (200). -/
theorem total_patch_counterexample :
    serializers.patchTotal ⟨100, [(1, 100)], [(1, 100)]⟩ (some 200) none =
      .ok ⟨200, [(1, 100)], [(1, 100)]⟩ ∧
    paidSum ⟨200, [(1, 100)], [(1, 100)]⟩ ≠
      (⟨200, [(1, 100)], [(1, 100)]⟩ : ExpenseState).total_amount_minor ∧
    owedSum ⟨200, [(1, 100)], [(1, 100)]⟩ ≠
      (⟨200, [(1, 100)], [(1, 100)]⟩ : ExpenseState).total_amount_minor := by
  decide

/-- Witness for C4's amended theorem: a patch that does include splits
restores both sums. -/
theorem total_mode_sum_invariant_witness :
    serializers.patchTotal ⟨100, [(1, 100)], [(1, 100)]⟩ (some 300)
        (some [⟨1, 300, 300⟩]) = .ok ⟨300, [(1, 300)], [(1, 300)]⟩ ∧
    (paidSum ⟨300, [(1, 300)], [(1, 300)]⟩ =
        (⟨300, [(1, 300)], [(1, 300)]⟩ : ExpenseState).total_amount_minor ∧
      owedSum ⟨300, [(1, 300)], [(1, 300)]⟩ =
        (⟨300, [(1, 300)], [(1, 300)]⟩ : ExpenseState).total_amount_minor) :=
  ⟨by decide,
    total_mode_sum_invariant.2.1 ⟨100, [(1, 100)], [(1, 100)]⟩ (some 300)
      [⟨1, 300, 300⟩] ⟨300, [(1, 300)], [(1, 300)]⟩ (by decide)⟩

/-- C8 (amended): a direct DELETE or a direct PATCH on an expense with
more than one payer is refused with 409 CONFLICT and leaves the expense
unchanged; a direct full-update PUT, however, is not guarded by any
payer-count check and proceeds after the payer permission check. -/
theorem direct_mutation_conflict (st : ExpenseState) (u : UserId)
    (total? : Option ℤ) (splits? : Option (List serializers.SplitIn))
    (hu : u ∈ views.payer_ids st) (hn : 1 < (views.payer_ids st).length) :
    views.destroyView st u = .conflict st ∧
    views.patchUpdateView st u total? splits? = .conflict st := by
  constructor
  · rw [views.destroyView, if_neg (not_not_intro hu), if_pos hn]
  · rw [views.patchUpdateView, if_neg (not_not_intro hu), if_pos hn]

/-- Witness for C8's amended theorem on a two-payer expense. -/
theorem direct_mutation_conflict_witness :
    ((1 : UserId) ∈ views.payer_ids ⟨200, [(1, 100), (2, 100)], [(1, 200)]⟩ ∧
      1 < (views.payer_ids ⟨200, [(1, 100), (2, 100)], [(1, 200)]⟩).length) ∧
    views.destroyView ⟨200, [(1, 100), (2, 100)], [(1, 200)]⟩ 1 =
      .conflict ⟨200, [(1, 100), (2, 100)], [(1, 200)]⟩ ∧
    views.patchUpdateView ⟨200, [(1, 100), (2, 100)], [(1, 200)]⟩ 1 none none =
      .conflict ⟨200, [(1, 100), (2, 100)], [(1, 200)]⟩ :=
  ⟨⟨by decide, by decide⟩,
    direct_mutation_conflict ⟨200, [(1, 100), (2, 100)], [(1, 200)]⟩ 1 none none
      (by decide) (by decide)⟩

/-- C8 counterexample: the viewset overrides only `partial_update` and
`destroy`; a direct PUT by a payer on a two-payer expense passes no
payer-count guard, succeeds, and rewrites the rows, instead of failing
with ConflictError as the claim states for every direct mutation. -/
theorem direct_put_counterexample :
    views.putUpdateView ⟨200, [(1, 100), (2, 100)], [(1, 200)]⟩ 1 (some 300)
        (some [⟨1, 300, 300⟩]) = .ok ⟨300, [(1, 300)], [(1, 300)]⟩ ∧
    1 < (views.payer_ids ⟨200, [(1, 100), (2, 100)], [(1, 200)]⟩).length := by
  decide

unseal Rat.mul Rat.add Rat.inv Rat.sub in
/-- C5 (code bug): for any item whose shares carry a nonzero weight, the
weight-based branch of `services.apply_itemized_mode_breakdown`
constructs `ExpenseItemShare` rows with BOTH `amount_minor` and `weight`
set, which violates the model's own check constraint
`itemshare_either_amount_or_weight` (exactly one of the two fields). -/
theorem itemshare_both_fields_set :
    services.itemized_weight_share_rows 100 [(1, 1), (2, 1)] =
      [⟨1, some 50, some 1⟩, ⟨2, some 50, some 1⟩] ∧
    (services.itemized_weight_share_rows 100 [(1, 1), (2, 1)]).all
        models.itemshare_constraint = false := by decide

unseal Rat.mul Rat.add Rat.inv Rat.sub in
/-- C9 counterexample: `_distribute_by_weights` checks no amount for
negativity; with total 3 over six users of equal weight, every non-last
user gets `round_half_up(1/2) = 1` and the last-user remainder is −2,
which the `shares` branch of `apply_total_mode_breakdown` persists as an
`ExpenseParticipant` row with no error. -/
theorem negative_remainder_counterexample :
    services.apply_total_mode_breakdown_shares 3 []
        [(1, 1), (2, 1), (3, 1), (4, 1), (5, 1), (6, 1)] =
      .ok [(1, 1), (2, 1), (3, 1), (4, 1), (5, 1), (6, -2)] ∧
    ((-2 : ℤ) < 0) := by decide

unseal Rat.mul Rat.add Rat.inv Rat.sub in
/-- C9 (amended): the engine has no NegativeAmountError.  Serializer
field validation rejects a supplied `amount_minor`, `paid_amount_minor`
or `owed_amount_minor` below zero (`min_value=0`), but the `weight`
field is unbounded (−1 passes validation) and computed amounts are never
checked: the negative last-user remainder of the six-user example above
is returned and persisted without error. -/
theorem negative_amount_amended :
    (∀ s : serializers.ItemShareIn, serializers.itemShareIn_fields_ok s = true →
      ∀ a, s.amount_minor = some a → 0 ≤ a) ∧
    (∀ s : serializers.SplitIn, serializers.splitIn_fields_ok s = true →
      0 ≤ s.paid ∧ 0 ≤ s.owed) ∧
    serializers.itemShareIn_fields_ok ⟨1, none, some (-1)⟩ = true ∧
    serializers.itemShareIn_validate ⟨1, none, some (-1)⟩ = true ∧
    services.apply_total_mode_breakdown_shares 3 []
        [(1, 1), (2, 1), (3, 1), (4, 1), (5, 1), (6, 1)] =
      .ok [(1, 1), (2, 1), (3, 1), (4, 1), (5, 1), (6, -2)] := by
  refine ⟨?_, ?_, by decide, by decide, by decide⟩
  · intro s hs a ha
    rcases s with ⟨u, am, w⟩
    cases am with
    | none => cases ha
    | some x =>
      cases ha
      rw [serializers.itemShareIn_fields_ok] at hs
      exact of_decide_eq_true hs
  · intro s hs
    rw [serializers.splitIn_fields_ok] at hs
    simp at hs
    exact hs

/-- Witness for C9's amended theorem: a nonnegative supplied amount
passes field validation and is indeed nonnegative. -/
theorem negative_amount_amended_witness :
    serializers.itemShareIn_fields_ok ⟨1, some 5, none⟩ = true ∧ (0 ≤ (5 : ℤ)) :=
  ⟨by decide, negative_amount_amended.1 ⟨1, some 5, none⟩ (by decide) 5 rfl⟩

section ApprovalLemmas

theorem recordApproval_nodup (A : List UserId) (u : UserId) (h : A.Nodup) :
    (views.recordApproval A u).Nodup := by
  rw [views.recordApproval]
  by_cases hm : u ∈ A
  · rw [if_pos hm]; exact h
  · rw [if_neg hm]
    simp [List.nodup_append, h, hm]

theorem recordApproval_subset {A P : List UserId} {u : UserId}
    (hs : A ⊆ P) (hu : u ∈ P) : views.recordApproval A u ⊆ P := by
  intro x hx
  rw [views.recordApproval] at hx
  by_cases hm : u ∈ A
  · rw [if_pos hm] at hx; exact hs hx
  · rw [if_neg hm] at hx
    rcases List.mem_append.mp hx with h | h
    · exact hs h
    · rw [List.mem_singleton] at h
      exact h ▸ hu

theorem recordApproval_mem (A : List UserId) (u : UserId) :
    u ∈ views.recordApproval A u := by
  rw [views.recordApproval]
  by_cases hm : u ∈ A
  · rw [if_pos hm]; exact hm
  · rw [if_neg hm]; simp

theorem recordApproval_of_mem {A : List UserId} {u : UserId} (h : u ∈ A) :
    views.recordApproval A u = A := by
  rw [views.recordApproval, if_pos h]

theorem quorum_iff {P A : List UserId} (hP : P.Nodup) (hA : A.Nodup)
    (hsub : A ⊆ P) : P.length ≤ A.length ↔ ∀ p ∈ P, p ∈ A := by
  constructor
  · intro hlen
    have hperm : A.Perm P :=
      (List.subperm_of_subset hA hsub).perm_of_length_le hlen
    intro p hp
    exact hperm.mem_iff.mpr hp
  · intro hall
    exact (List.subperm_of_subset hP fun x hx => hall x hx).length_le

theorem pickLatest_some (l : List views.ActionRequest) :
    ∀ b : views.ActionRequest,
      ∃ c, l.foldl views.pickLatest (some b) = some c ∧ (c = b ∨ c ∈ l) ∧
        b.created_at ≤ c.created_at ∧ ∀ x ∈ l, x.created_at ≤ c.created_at := by
  induction l with
  | nil => intro b; exact ⟨b, rfl, Or.inl rfl, le_refl _, by simp⟩
  | cons r t ih =>
    intro b
    rw [List.foldl_cons]
    by_cases hbr : b.created_at < r.created_at
    · have hstep : views.pickLatest (some b) r = some r := by
        rw [views.pickLatest, if_pos hbr]
      rw [hstep]
      obtain ⟨c, hc, hmem, hle, hall⟩ := ih r
      refine ⟨c, hc, ?_, le_trans (le_of_lt hbr) hle, ?_⟩
      · rcases hmem with h | h
        · exact Or.inr (h ▸ List.mem_cons_self r t)
        · exact Or.inr (List.mem_cons_of_mem r h)
      · intro x hx
        rcases List.mem_cons.mp hx with h | h
        · exact h ▸ hle
        · exact hall x h
    · have hstep : views.pickLatest (some b) r = some b := by
        rw [views.pickLatest, if_neg hbr]
      rw [hstep]
      obtain ⟨c, hc, hmem, hle, hall⟩ := ih b
      refine ⟨c, hc, ?_, hle, ?_⟩
      · rcases hmem with h | h
        · exact Or.inl h
        · exact Or.inr (List.mem_cons_of_mem r h)
      · intro x hx
        rcases List.mem_cons.mp hx with h | h
        · exact h ▸ le_trans (not_lt.mp hbr) hle
        · exact hall x h

theorem selectRequest_none_iff (reqs : List views.ActionRequest)
    (a : views.ActionKind) :
    views.selectRequest reqs a = none ↔
      ∀ r ∈ reqs, r.action = a → r.is_completed = true := by
  rw [views.selectRequest]
  cases hf : reqs.filter fun r => r.action == a && r.is_completed == false with
  | nil =>
    simp only [List.foldl_nil]
    constructor
    · intro _ r hr hact
      have hnp := List.filter_eq_nil_iff.mp hf r hr
      simp [hact] at hnp
      exact hnp
    · intro _; trivial
  | cons q t =>
    have hstep : views.pickLatest none q = some q := rfl
    obtain ⟨c, hc, _, _, _⟩ := pickLatest_some t q
    rw [List.foldl_cons, hstep, hc]
    constructor
    · intro hcon; cases hcon
    · intro hall
      have hqmem : q ∈ reqs.filter fun r => r.action == a && r.is_completed == false :=
        hf ▸ List.mem_cons_self q t
      have hq := List.mem_filter.mp hqmem
      have : q.action = a ∧ q.is_completed = false := by
        simpa using hq.2
      exact absurd (hall q hq.1 this.1) (by simp [this.2])

theorem selectRequest_some_spec {reqs : List views.ActionRequest}
    {a : views.ActionKind} {r : views.ActionRequest}
    (h : views.selectRequest reqs a = some r) :
    r ∈ reqs ∧ r.action = a ∧ r.is_completed = false ∧
      ∀ x ∈ reqs, x.action = a → x.is_completed = false →
        x.created_at ≤ r.created_at := by
  rw [views.selectRequest] at h
  cases hf : reqs.filter fun x => x.action == a && x.is_completed == false with
  | nil => rw [hf] at h; cases h
  | cons q t =>
    rw [hf, List.foldl_cons] at h
    have hstep : views.pickLatest none q = some q := rfl
    rw [hstep] at h
    obtain ⟨c, hc, hmem, hqle, hall⟩ := pickLatest_some t q
    rw [hc] at h
    cases h
    have hrfilter : r ∈ reqs.filter fun x => x.action == a && x.is_completed == false := by
      rw [hf]
      rcases hmem with h | h
      · exact h ▸ List.mem_cons_self q t
      · exact List.mem_cons_of_mem q h
    have hrprops := List.mem_filter.mp hrfilter
    have hr2 : r.action = a ∧ r.is_completed = false := by simpa using hrprops.2
    refine ⟨hrprops.1, hr2.1, hr2.2, ?_⟩
    intro x hx hxa hxc
    have hxfilter : x ∈ reqs.filter fun y => y.action == a && y.is_completed == false := by
      rw [List.mem_filter]
      exact ⟨hx, by simp [hxa, hxc]⟩
    rw [hf] at hxfilter
    rcases List.mem_cons.mp hxfilter with hxq | hxt
    · exact hxq ▸ hqle
    · exact hall x hxt

end ApprovalLemmas

theorem selectRequest_singleton {req : views.ActionRequest}
    {a : views.ActionKind} (hact : req.action = a)
    (hcomp : req.is_completed = false) :
    views.selectRequest [req] a = some req := by
  rw [views.selectRequest]
  have hfil : (([req] : List views.ActionRequest).filter
      fun r => r.action == a && r.is_completed == false) = [req] := by
    simp [List.filter_cons, hact, hcomp]
  rw [hfil]
  rfl

/-- C6: the requester must be a payer; with payer count at most one,
request-delete deletes at once and request-edit applies a valid patch at
once, creating no `ExpenseActionRequest` row; with more than one payer a
request row is created capturing `required_count` = payer count and the
requester's own approval, and a subsequent approval applies the action
exactly when every payer is in the recorded approval set — never
earlier. -/
theorem approval_quorum_correct :
    (∀ (st : ExpenseState) (u : UserId) (rid now : ℕ),
      u ∈ views.payer_ids st → (views.payer_ids st).length ≤ 1 →
        views.request_delete st u rid now = .deletedNow) ∧
    (∀ (st : ExpenseState) (u : UserId) (total? : Option ℤ)
        (splits? : Option (List serializers.SplitIn)) (rid now : ℕ)
        (st1 : ExpenseState),
      u ∈ views.payer_ids st → (views.payer_ids st).length ≤ 1 →
        serializers.patchTotal st total? splits? = .ok st1 →
        views.request_edit st u total? splits? rid now = .editedNow st1) ∧
    (∀ (st : ExpenseState) (u : UserId) (rid now : ℕ),
      u ∈ views.payer_ids st → 1 < (views.payer_ids st).length →
        views.request_delete st u rid now =
          .created ⟨rid, .delete, (views.payer_ids st).length, [u], false,
            now, none, none⟩) ∧
    (∀ (st : ExpenseState) (req : views.ActionRequest) (u : UserId),
      (views.payer_ids st).Nodup → req.approvals.Nodup →
      req.approvals ⊆ views.payer_ids st → req.action = .delete →
      req.is_completed = false →
      req.required_count = (views.payer_ids st).length →
      u ∈ views.payer_ids st →
        ((∃ reqs', views.approve st [req] u .delete = .applied reqs' none) ↔
          ∀ p ∈ views.payer_ids st, p ∈ views.recordApproval req.approvals u)) ∧
    (∀ (st : ExpenseState) (req : views.ActionRequest) (u : UserId)
        (st1 : ExpenseState),
      (views.payer_ids st).Nodup → req.approvals.Nodup →
      req.approvals ⊆ views.payer_ids st → req.action = .edit →
      req.is_completed = false →
      req.required_count = (views.payer_ids st).length →
      u ∈ views.payer_ids st →
      serializers.patchTotal st req.payload_total req.payload_splits = .ok st1 →
        ((∃ reqs', views.approve st [req] u .edit = .applied reqs' (some st1)) ↔
          ∀ p ∈ views.payer_ids st, p ∈ views.recordApproval req.approvals u)) := by
  refine ⟨?_, ?_, ?_, ?_, ?_⟩
  · intro st u rid now hu hle
    simp [views.request_delete, not_not_intro hu, hle]
  · intro st u total? splits? rid now st1 hu hle hpatch
    simp [views.request_edit, not_not_intro hu, hle, hpatch]
  · intro st u rid now hu hn
    have hnle : ¬ ((views.payer_ids st).length ≤ 1) := by omega
    simp [views.request_delete, not_not_intro hu, hnle]
  · intro st req u hP hA hsub hact hcomp hreq hu
    have hsel : views.selectRequest [req] .delete = some req :=
      selectRequest_singleton hact hcomp
    rw [views.approve, if_neg (not_not_intro hu)]
    simp only [hsel]
    by_cases hq : req.required_count ≤
        (views.recordApproval req.approvals u).length
    · rw [if_pos hq]
      apply iff_of_true
      · exact ⟨_, rfl⟩
      · rw [hreq] at hq
        exact (quorum_iff hP (recordApproval_nodup _ _ hA)
          (recordApproval_subset hsub hu)).mp hq
    · rw [if_neg hq]
      apply iff_of_false
      · intro hcon
        obtain ⟨reqs', hc⟩ := hcon
        cases hc
      · intro hall
        apply hq
        rw [hreq]
        exact (quorum_iff hP (recordApproval_nodup _ _ hA)
          (recordApproval_subset hsub hu)).mpr hall
  · intro st req u st1 hP hA hsub hact hcomp hreq hu hpatch
    have hsel : views.selectRequest [req] .edit = some req :=
      selectRequest_singleton hact hcomp
    rw [views.approve, if_neg (not_not_intro hu)]
    simp only [hsel]
    by_cases hq : req.required_count ≤
        (views.recordApproval req.approvals u).length
    · rw [if_pos hq]
      simp only [hpatch]
      apply iff_of_true
      · exact ⟨_, rfl⟩
      · rw [hreq] at hq
        exact (quorum_iff hP (recordApproval_nodup _ _ hA)
          (recordApproval_subset hsub hu)).mp hq
    · rw [if_neg hq]
      apply iff_of_false
      · intro hcon
        obtain ⟨reqs', hc⟩ := hcon
        cases hc
      · intro hall
        apply hq
        rw [hreq]
        exact (quorum_iff hP (recordApproval_nodup _ _ hA)
          (recordApproval_subset hsub hu)).mpr hall

/-- Witness for C6: a single-payer delete request applies immediately,
and on a three-payer expense with approvals recorded for payer 1, an
approve call by payer 2 applies the delete exactly when the recorded
approvals cover all three payers (here they do not yet). -/
theorem approval_quorum_correct_witness :
    views.request_delete ⟨100, [(1, 100)], [(1, 100)]⟩ 1 7 0 = .deletedNow ∧
    ((∃ reqs', views.approve ⟨300, [(1, 100), (2, 100), (3, 100)], []⟩
        [⟨5, .delete, 3, [1], false, 0, none, none⟩] 2 .delete =
          .applied reqs' none) ↔
      ∀ p ∈ views.payer_ids ⟨300, [(1, 100), (2, 100), (3, 100)], []⟩,
        p ∈ views.recordApproval [1] 2) :=
  ⟨approval_quorum_correct.1 ⟨100, [(1, 100)], [(1, 100)]⟩ 1 7 0
      (by decide) (by decide),
   approval_quorum_correct.2.2.2.1 ⟨300, [(1, 100), (2, 100), (3, 100)], []⟩
      ⟨5, .delete, 3, [1], false, 0, none, none⟩ 2 (by decide) (by decide)
      (by decide) rfl rfl (by decide) (by decide)⟩

/-- C7: approval recording is idempotent per `(request, user)`: the
approvals list never acquires a duplicate (at most one Approval row per
pair), and when an approve call leaves a request pending, a second
approve call by the same user returns the identical pending request —
the duplicate vote is a no-op, not an error, and the count is
unchanged. -/
theorem duplicate_approval_idempotent :
    (∀ (A : List UserId) (u : UserId), A.Nodup →
      (views.recordApproval A u).Nodup) ∧
    (∀ (st : ExpenseState) (req req1 : views.ActionRequest) (u : UserId)
        (a : views.ActionKind),
      views.approve st [req] u a = .pending [req1] →
        views.approve st [req1] u a = .pending [req1]) := by
  refine ⟨recordApproval_nodup, ?_⟩
  intro st req req1 u a h
  by_cases hu : u ∈ views.payer_ids st
  · rw [views.approve, if_neg (not_not_intro hu)] at h
    cases hsel : views.selectRequest [req] a with
    | none => rw [hsel] at h; cases h
    | some r =>
      simp only [hsel] at h
      obtain ⟨hrmem, hract, hrcomp, _⟩ := selectRequest_some_spec hsel
      have hr : r = req := List.mem_singleton.mp hrmem
      subst hr
      by_cases hq : r.required_count ≤
          (views.recordApproval r.approvals u).length
      · rw [if_pos hq] at h
        cases a with
        | delete => cases h
        | edit =>
          cases hp : serializers.patchTotal st r.payload_total r.payload_splits with
          | ok st1 => rw [hp] at h; cases h
          | error e => rw [hp] at h; cases h
      · rw [if_neg hq] at h
        have hupd : views.updateReq [r]
            { r with approvals := views.recordApproval r.approvals u } =
            [{ r with approvals := views.recordApproval r.approvals u }] := by
          simp [views.updateReq]
        rw [hupd] at h
        have hreq1 : req1 = { r with approvals := views.recordApproval r.approvals u } := by
          cases h
          rfl
        subst hreq1
        have hact1 : ({ r with approvals := views.recordApproval r.approvals u } :
            views.ActionRequest).action = a := hract
        have hcomp1 : ({ r with approvals := views.recordApproval r.approvals u } :
            views.ActionRequest).is_completed = false := hrcomp
        rw [views.approve, if_neg (not_not_intro hu)]
        simp only [selectRequest_singleton hact1 hcomp1]
        have hmem1 : u ∈ ({ r with approvals := views.recordApproval r.approvals u } :
            views.ActionRequest).approvals := recordApproval_mem r.approvals u
        rw [recordApproval_of_mem hmem1]
        have hq1 : ¬ (({ r with approvals := views.recordApproval r.approvals u } :
            views.ActionRequest).required_count ≤
              (({ r with approvals := views.recordApproval r.approvals u } :
                views.ActionRequest).approvals).length) := hq
        rw [if_neg hq1]
        simp [views.updateReq]
  · rw [views.approve, if_pos hu] at h
    cases h

/-- Witness for C7: on a three-payer expense, payer 2's first approval of
a pending delete request leaves it pending with approvals 1, 2; a second
approve call by payer 2 returns the identical pending state. -/
theorem duplicate_approval_idempotent_witness :
    views.approve ⟨300, [(1, 100), (2, 100), (3, 100)], []⟩
        [⟨5, .delete, 3, [1], false, 0, none, none⟩] 2 .delete =
      .pending [⟨5, .delete, 3, [1, 2], false, 0, none, none⟩] ∧
    views.approve ⟨300, [(1, 100), (2, 100), (3, 100)], []⟩
        [⟨5, .delete, 3, [1, 2], false, 0, none, none⟩] 2 .delete =
      .pending [⟨5, .delete, 3, [1, 2], false, 0, none, none⟩] :=
  ⟨by decide,
   duplicate_approval_idempotent.2 ⟨300, [(1, 100), (2, 100), (3, 100)], []⟩
     ⟨5, .delete, 3, [1], false, 0, none, none⟩
     ⟨5, .delete, 3, [1, 2], false, 0, none, none⟩ 2 .delete (by decide)⟩

/-- C10 (amended): `approve` never identifies a request by id — it
resolves the latest-created incomplete request for the `(expense,
action)` pair: the lookup returns none exactly when every matching
request is completed (approve then answers not-found), and when it
returns a request, that request is an incomplete one for the action
whose `created_at` is maximal among the incomplete matches.  An older
pending request is therefore shadowed only while a newer incomplete one
exists; once the newer request completes, the older pending request is
selected again and can receive approvals and complete. -/
theorem approve_targets_latest_incomplete :
    (∀ (reqs : List views.ActionRequest) (a : views.ActionKind),
      views.selectRequest reqs a = none ↔
        ∀ r ∈ reqs, r.action = a → r.is_completed = true) ∧
    (∀ (reqs : List views.ActionRequest) (a : views.ActionKind)
        (r : views.ActionRequest),
      views.selectRequest reqs a = some r →
        r ∈ reqs ∧ r.action = a ∧ r.is_completed = false ∧
          ∀ x ∈ reqs, x.action = a → x.is_completed = false →
            x.created_at ≤ r.created_at) ∧
    (∀ (st : ExpenseState) (reqs : List views.ActionRequest) (u : UserId)
        (a : views.ActionKind),
      u ∈ views.payer_ids st →
        (views.approve st reqs u a = .notFound ↔
          views.selectRequest reqs a = none)) := by
  refine ⟨selectRequest_none_iff, fun reqs a r h => selectRequest_some_spec h, ?_⟩
  intro st reqs u a hu
  rw [views.approve, if_neg (not_not_intro hu)]
  cases hsel : views.selectRequest reqs a with
  | none =>
    simp only [hsel]
  | some r =>
    simp only [hsel]
    apply iff_of_false
    · intro hcon
      by_cases hq : r.required_count ≤
          (views.recordApproval r.approvals u).length
      · rw [if_pos hq] at hcon
        cases a with
        | delete => cases hcon
        | edit =>
          cases hp : serializers.patchTotal st r.payload_total r.payload_splits with
          | ok st1 => rw [hp] at hcon; cases hcon
          | error e => rw [hp] at hcon; cases hcon
      · rw [if_neg hq] at hcon
        cases hcon
    · intro hcon
      cases hcon

/-- Witness for C10's amended theorem: with no request rows an approve
call by a payer answers not-found. -/
theorem approve_targets_latest_incomplete_witness :
    ((1 : UserId) ∈ views.payer_ids ⟨100, [(1, 50), (2, 50)], [(1, 100)]⟩) ∧
    (views.approve ⟨100, [(1, 50), (2, 50)], [(1, 100)]⟩ [] 1 .edit =
        .notFound ↔
      views.selectRequest [] views.ActionKind.edit = none) :=
  ⟨by decide,
   approve_targets_latest_incomplete.2.2 ⟨100, [(1, 50), (2, 50)], [(1, 100)]⟩
     [] 1 .edit (by decide)⟩

/-- C10 counterexample: requests r1 (created at 1, still pending) and r2
(created at 2, completed) exist for the same expense and action.  The
claim says the older pending r1 can no longer receive approvals or reach
completion, yet the approve call by payer 2 selects r1, attaches the
approval to it, and completes it. -/
theorem stale_request_revival_counterexample :
    ((⟨1, .edit, 2, [1], false, 1, none, none⟩ : views.ActionRequest).created_at <
      (⟨2, .edit, 2, [1, 2], true, 2, none, none⟩ : views.ActionRequest).created_at) ∧
    views.selectRequest
        [⟨1, .edit, 2, [1], false, 1, none, none⟩,
         ⟨2, .edit, 2, [1, 2], true, 2, none, none⟩] .edit =
      some ⟨1, .edit, 2, [1], false, 1, none, none⟩ ∧
    views.approve ⟨100, [(1, 50), (2, 50)], [(1, 100)]⟩
        [⟨1, .edit, 2, [1], false, 1, none, none⟩,
         ⟨2, .edit, 2, [1, 2], true, 2, none, none⟩] 2 .edit =
      .applied
        [⟨1, .edit, 2, [1, 2], true, 1, none, none⟩,
         ⟨2, .edit, 2, [1, 2], true, 2, none, none⟩]
        (some ⟨100, [(1, 50), (2, 50)], [(1, 100)]⟩) := by
  refine ⟨by decide, by decide, by decide⟩
